/-
  Verification of the Endee RAG backend (src/backend/main.py, src/backend/rag.py).

  Python strings are modelled as lists of characters (`Str`); the relevant
  Python string primitives (`strip`, `split`, `replace`, negative slices) are
  given faithful executable counterparts.  Stateful endpoint handlers are
  modelled as pure state-transformers; the external services (vector index,
  embedding model, Gemini) are opaque parameters, exactly as the spec frames
  them.
-/
import Mathlib

set_option maxHeartbeats 1000000

/-- Python strings as sequences of code points. -/
abbrev Str := List Char

/-- Python `str.strip()` removes leading and trailing whitespace. -/
def strip (s : Str) : Str :=
  ((s.dropWhile Char.isWhitespace).reverse.dropWhile Char.isWhitespace).reverse

/-- Splitting a character sequence at every character satisfying `p`, keeping
empty pieces; always returns at least one piece.  This is the common core of
Python `str.split(sep)` and whitespace `str.split()`. -/
def splitP (p : Char → Bool) : Str → List Str
  | [] => [[]]
  | c :: rest =>
    if p c then [] :: splitP p rest
    else
      match splitP p rest with
      | [] => [[c]]
      | q :: qs => (c :: q) :: qs

/-- Python `str.split(sep)` for a one-character separator. -/
def splitOnChar (sep : Char) (s : Str) : List Str :=
  splitP (fun c => c = sep) s

/-- Python `str.split()` with no argument: split on whitespace, dropping empty
pieces. -/
def splitWs (s : Str) : List Str :=
  (splitP Char.isWhitespace s).filter (· ≠ [])

/-- Python `para.replace(". ", ".\n")`: leftmost non-overlapping replacement of
the two-character pattern period-space by period-newline. -/
def replaceDotSpace : Str → Str
  | [] => []
  | '.' :: ' ' :: rest => '.' :: '\n' :: replaceDotSpace rest
  | c :: rest => c :: replaceDotSpace rest

/-- Python `" ".join(words)`. -/
def joinSp : List Str → Str
  | [] => []
  | [w] => w
  | w :: ws => w ++ ' ' :: joinSp ws

/-- Python `words[-m:]` for `m = min(len(words), k)` (as written in
`smart_chunk`): for `m = 0` the slice `[-0:]` is the whole list, otherwise the
last `m` elements. -/
def pyTailSlice (words : List Str) (k : Nat) : List Str :=
  let m := min words.length k
  if m = 0 then words else words.drop (words.length - m)

/-- The sentence-extraction pass of `smart_chunk` (main.py lines 76-84):
split the text into paragraphs on newline, strip each, skip empty ones, then
split each paragraph into sentences at `". "` boundaries, strip and keep the
non-empty ones. -/
def sentencesOf (text : Str) : List Str :=
  (((splitOnChar '\n' text).map strip).filter (· ≠ [])).flatMap fun para =>
    ((splitOnChar '\n' (replaceDotSpace para)).map strip).filter (· ≠ [])

/-- The accumulation loop of `smart_chunk` (main.py lines 86-98): greedily add
sentences to `current`; when adding would push past `chunk_size` and `current`
is non-empty, emit `current.strip()` and seed the next buffer with the Python
slice `words[-min(len(words), overlap // 5):]` of the words of the emitted buffer. -/
def chunkLoop (chunk_size overlap : Nat) :
    List Str → Str → List Str → List Str
  | [], current, chunks =>
    if strip current ≠ [] then chunks ++ [strip current] else chunks
  | sent :: rest, current, chunks =>
    if current.length + sent.length + 1 > chunk_size ∧ current ≠ [] then
      chunkLoop chunk_size overlap rest
        (joinSp (pyTailSlice (splitWs current) (overlap / 5)) ++ ' ' :: sent)
        (chunks ++ [strip current])
    else
      chunkLoop chunk_size overlap rest (current ++ ' ' :: sent) chunks

/-- The chunker `smart_chunk(text, chunk_size=500, overlap=100)` from main.py. -/
def smart_chunk (text : Str) (chunk_size : Nat := 500) (overlap : Nat := 100) :
    List Str :=
  chunkLoop chunk_size overlap (sentencesOf text) [] []

/-! ### Spec-side chunker (for the refinement claim about `smart_chunk`)

The following definitions are modelled from the wording of the spec, to be
compared with the code-side `smart_chunk` above. -/

/-- Modelled from the spec: split a paragraph into sentences at literal
`". "` occurrences (the period stays with the left piece, the space is
consumed). -/
def splitDotSpace : Str → List Str
  | [] => [[]]
  | '.' :: ' ' :: rest => ['.'] :: splitDotSpace rest
  | c :: rest => (c :: (splitDotSpace rest).headI) :: (splitDotSpace rest).tail

/-- Modelled from the spec: split into paragraphs on newline, trim, split each
paragraph into sentences at literal `". "` occurrences, trim, keep non-empty. -/
def sentencesSpec (text : Str) : List Str :=
  (((splitOnChar '\n' text).map strip).filter (· ≠ [])).flatMap fun para =>
    ((splitDotSpace para).map strip).filter (· ≠ [])

/-- Modelled from the spec: the last `⌊overlap/5⌋` words of a word list
(all of them when there are fewer). -/
def specTailWords (words : List Str) (k : Nat) : List Str :=
  words.drop (words.length - k)

/-- Modelled from the spec: greedy sentence accumulation; on overflow with a
non-empty buffer, emit the buffer and seed the next one with the last
`⌊overlap/5⌋` words of the emitted chunk joined by spaces, prepended to the
new sentence. -/
def chunkSpecLoop (chunk_size overlap : Nat) :
    List Str → Str → List Str → List Str
  | [], current, chunks =>
    if strip current ≠ [] then chunks ++ [strip current] else chunks
  | sent :: rest, current, chunks =>
    if current.length + sent.length + 1 > chunk_size ∧ current ≠ [] then
      chunkSpecLoop chunk_size overlap rest
        (joinSp (specTailWords (splitWs current) (overlap / 5)) ++ ' ' :: sent)
        (chunks ++ [strip current])
    else
      chunkSpecLoop chunk_size overlap rest (current ++ ' ' :: sent) chunks

/-- Modelled from the spec: the whole chunking algorithm as §4.1 words it. -/
def chunkSpec (text : Str) (chunk_size overlap : Nat) : List Str :=
  chunkSpecLoop chunk_size overlap (sentencesSpec text) [] []

/-! ### Generation Gateway (`RAGService._call_gemini`, rag.py lines 113-141) -/

/-- Python `needle in hay` substring containment. -/
def containsSub (needle : Str) : Str → Bool
  | [] => needle.isEmpty
  | c :: rest => needle.isPrefixOf (c :: rest) || containsSub needle rest

/-- Python `str.lower()` (per code point). -/
def lowerAll (s : Str) : Str := s.map Char.toLower

/-- The rate-limit classification of rag.py line 128:
`"429" in err_str or "quota" in err_str.lower() or "rate" in err_str.lower()`. -/
def isRateLimited (err : String) : Bool :=
  containsSub "429".toList err.toList ||
  containsSub "quota".toList (lowerAll err.toList) ||
  containsSub "rate".toList (lowerAll err.toList)

/-- The fixed missing-credential message (rag.py line 116). -/
def missingKeyMsg : String :=
  "Gemini API Key is missing. Please set GEMINI_API_KEY to enable AI chat."

/-- The fixed exhausted-fallback message (rag.py lines 137-141). -/
def exhaustedMsg : String :=
  "⚠️ All Gemini models are currently rate-limited. Please wait a minute and try again, or check your API quota at [ai.google.dev](https://ai.google.dev/gemini-api/docs/rate-limits)."

/-- The prioritized model chain (rag.py lines 35-41). -/
def GEMINI_MODEL_CHAIN : List String :=
  ["gemini-2.0-flash", "gemini-1.5-flash", "gemini-1.5-flash-latest",
   "gemini-pro", "gemini-pro-latest"]

/-- The per-model `for attempt in range(2)` loop (rag.py lines 120-134), over the
outcomes the external model call produces per attempt index.  Returns the
answer (if any) and the number of outbound attempts made: success returns at
once; a rate-limit-shaped error continues with the remaining attempt indices;
any other error breaks out of the attempt loop immediately. -/
def tryAttempts (call : Nat → Except String String) : List Nat → Option String × Nat
  | [] => (none, 0)
  | i :: rest =>
    match call i with
    | .ok r => (some r, 1)
    | .error e =>
      if isRateLimited e then
        let (res, n) := tryAttempts call rest
        (res, n + 1)
      else (none, 1)

/-- The outer `for model_name in chain` loop of rag.py lines 119-134,
accumulating the total number of outbound attempts. -/
def modelChainLoop (oracle : String → Nat → Except String String) :
    List String → Option String × Nat
  | [] => (none, 0)
  | m :: ms =>
    match tryAttempts (oracle m) [0, 1] with
    | (some r, n) => (some r, n)
    | (none, n) =>
      let (res, k) := modelChainLoop oracle ms
      (res, n + k)

/-- The gateway `RAGService._call_gemini(prompt)`: the oracle maps (prompt, model name,
attempt index) to what the external Gemini call does there.  Returns the
answer string and the number of outbound model calls performed. -/
def call_gemini (has_gemini : Bool) (chain : List String)
    (oracle : String → String → Nat → Except String String)
    (prompt : String) : String × Nat :=
  if has_gemini then
    match modelChainLoop (oracle prompt) chain with
    | (some r, n) => (r, n)
    | (none, n) => (exhaustedMsg, n)
  else (missingKeyMsg, 0)

/-! ### Query endpoint (`query_index`, main.py lines 296-353) -/

/-- The `meta` payload attached to an indexed vector. -/
structure VectorMeta where
  content : Option String
  filename : Option String

/-- One raw hit returned by the vector index (`service.search`). -/
structure SearchItem where
  id : Option String
  similarity : Option ℚ
  meta : Option VectorMeta

/-- One entry of the `formatted_results` list built by the endpoint. -/
structure FormattedResult where
  id : Option String
  score : Option ℚ
  content : String
  filename : String

/-- The placeholder used when a hit carries no content (main.py line 307). -/
def noContentMsg : String := "No content available"

/-- Descending order on the optional similarity scores carried by hits: the
left score is at least the right one (vacuously true when either is absent). -/
def simGe (x y : Option ℚ) : Bool :=
  match x, y with
  | some a, some b => decide (b ≤ a)
  | _, _ => true

/-- The result-formatting loop of main.py lines 306-316: builds
`formatted_results` and `context_chunks` in hit order. -/
def collectResults : List SearchItem → List FormattedResult × List String
  | [] => ([], [])
  | item :: rest =>
    let content := (item.meta.bind VectorMeta.content).getD noContentMsg
    let r := collectResults rest
    ({ id := item.id, score := item.similarity, content := content,
       filename := (item.meta.bind VectorMeta.filename).getD "unknown" } :: r.1,
     if content ≠ "" ∧ content ≠ noContentMsg then content :: r.2 else r.2)

/-- One chat message `{role, content}`. -/
structure ChatMessage where
  role : String
  content : String

/-- A `conversation_store` entry (main.py line 25). -/
structure Conversation where
  id : String
  title : String
  messages : List ChatMessage
  created_at : Nat
  updated_at : Nat

/-- The in-memory conversation store, as a partial map from id to entry. -/
abbrev ConvStore := String → Option Conversation

/-- Title generation `generate_title_from_query` (main.py lines 101-106). -/
def generate_title_from_query (query : String) : String :=
  let t := strip query.toList
  String.mk (if 60 < t.length then t.take 60 ++ ['…'] else t.take 60)

/-- Python `messages[-6:]`: the most recent six messages. -/
def lastSix (msgs : List ChatMessage) : List ChatMessage :=
  msgs.drop (msgs.length - 6)

/-- The fresh conversation minted by main.py lines 330-337. -/
def freshConv (cid query : String) (now : Nat) : Conversation :=
  { id := cid, title := generate_title_from_query query, messages := [],
    created_at := now, updated_at := now }

/-- What a `/query` call returns plus the post-state of the conversation
store. -/
structure QueryOutcome where
  results : List FormattedResult
  answer : Option String
  conversation_id : Option String
  conversations : ConvStore

/-- The endpoint handler `query_index` (main.py lines 296-353) as a state transformer.
External collaborators are parameters: `search_results` is what
`service.search` returned, `generate_answer` is the Generation Gateway,
`new_uuid` is the `uuid.uuid4()` value, `now` the clock. -/
def query_index (conversations : ConvStore) (search_results : List SearchItem)
    (generate_answer : String → List String → List ChatMessage → String)
    (new_uuid : String) (now : Nat)
    (query : String) (top_k : Nat) (mode : String)
    (conversation_id : Option String) : QueryOutcome :=
  if mode = "chat" then
    let history : List ChatMessage :=
      match conversation_id with
      | some cid =>
        match conversations cid with
        | some c => lastSix c.messages
        | none => []
      | none => []
    let answer := generate_answer query (collectResults search_results).2 history
    let cs :=
      match conversation_id with
      | some cid =>
        match conversations cid with
        | some _ => (cid, conversations)
        | none =>
          (new_uuid, fun i =>
            if i = new_uuid then some (freshConv new_uuid query now)
            else conversations i)
      | none =>
        (new_uuid, fun i =>
          if i = new_uuid then some (freshConv new_uuid query now)
          else conversations i)
    let store2 : ConvStore := fun i =>
      if i = cs.1 then
        match cs.2 cs.1 with
        | some c =>
          some { c with
                 messages := c.messages ++
                   [⟨"user", query⟩, ⟨"assistant", answer⟩],
                 updated_at := now }
        | none => none
      else cs.2 i
    ⟨(collectResults search_results).1, some answer, some cs.1, store2⟩
  else
    ⟨(collectResults search_results).1, none, conversation_id, conversations⟩

/-! ### Document endpoints (main.py lines 208-274, rag.py lines 77-97) -/

/-- A `document_store` entry (main.py lines 249-256). -/
structure DocMeta where
  filename : String
  chunks : Nat
  size_bytes : Nat
  uploaded_at : Nat
  preview : Str
  full_text : Str

/-- The in-memory document store, as a partial map from filename to entry. -/
abbrev DocStore := String → Option DocMeta

/-- Outcome of `DELETE /documents/{filename}`. -/
inductive DeleteStatus where
  | deleted
  | notFound
deriving DecidableEq

/-- The handler `delete_document` (main.py lines 208-213) as a transformer on the whole
system state.  The handler reads and writes only `document_store`; the vector
index state (of arbitrary type `V`) is carried through untouched, which is
exactly what the handler does — it never issues an index deletion. -/
def delete_document {V : Type} (docs : DocStore) (index : V)
    (filename : String) : DocStore × V × DeleteStatus :=
  match docs filename with
  | some _ => (fun f => if f = filename then none else docs f, index, .deleted)
  | none => (docs, index, .notFound)

/-- The method `RAGService.ingest_text` (rag.py lines 77-97), with the embedding call and
uuid abstracted away: returns the doc id (as a unit witness) when an upsert
happened, and the number of upserts performed (0 or 1).  Blank text returns
early; without an initialised index nothing is upserted and `None` is
returned. -/
def ingest_text (has_index : Bool) (text : Str) : Option Unit × Nat :=
  if strip text = [] then (none, 0)
  else if has_index then (some (), 1) else (none, 0)

/-- The per-chunk loop of `ingest_file` (main.py lines 242-245): `count` is
incremented once per chunk, unconditionally; the second component accumulates
the upserts actually performed by `ingest_text`. -/
def ingestLoop (has_index : Bool) : List Str → Nat × Nat
  | [] => (0, 0)
  | c :: rest =>
    let u := (ingest_text has_index c).2
    let r := ingestLoop has_index rest
    (r.1 + 1, u + r.2)

/-- The chunk-and-store core of `ingest_file` (main.py lines 240-256): chunk
the extracted text, run the ingest loop, and build the `document_store` entry.
Returns the stored metadata and the number of successful upserts. -/
def ingest_file (has_index : Bool) (filename : String) (text : Str)
    (file_size now : Nat) : DocMeta × Nat :=
  let chunks := smart_chunk text
  let cu := ingestLoop has_index chunks
  ({ filename := filename, chunks := cu.1, size_bytes := file_size,
     uploaded_at := now, preview := strip (text.take 300), full_text := text },
   cu.2)

/-- Helper for reasoning about the greedy loop when no overflow can occur:
the buffer that results from appending every remaining sentence. -/
def appendAll (current : Str) : List Str → Str
  | [] => current
  | s :: rest => appendAll (current ++ ' ' :: s) rest

/-! ## General lemmas about the string primitives -/

theorem splitP_ne_nil (p : Char → Bool) (s : Str) : splitP p s ≠ [] := by
  induction s with
  | nil => simp [splitP]
  | cons c rest ih =>
    rw [splitP]
    by_cases h : p c
    · simp [h]
    · simp only [h, if_false]
      cases hq : splitP p rest with
      | nil => simp
      | cons q qs => simp

theorem splitP_cons_form (p : Char → Bool) (s : Str) :
    ∃ q qs, splitP p s = q :: qs := by
  cases h : splitP p s with
  | nil => exact absurd h (splitP_ne_nil p s)
  | cons q qs => exact ⟨q, qs, rfl⟩

theorem splitP_cons (p : Char → Bool) (c : Char) (rest : Str) :
    splitP p (c :: rest) =
      if p c then [] :: splitP p rest
      else (c :: (splitP p rest).headI) :: (splitP p rest).tail := by
  obtain ⟨q, qs, hq⟩ := splitP_cons_form p rest
  rw [splitP, hq]
  by_cases h : p c <;> simp [h]

theorem mem_of_mem_splitP (p : Char → Bool) (s : Str) :
    ∀ q ∈ splitP p s, ∀ c ∈ q, c ∈ s ∧ p c = false := by
  induction s with
  | nil =>
    intro q hq c hc
    simp [splitP] at hq
    subst hq
    simp at hc
  | cons a rest ih =>
    intro q hq c hc
    obtain ⟨q0, qs, hrest⟩ := splitP_cons_form p rest
    rw [splitP_cons, hrest] at hq
    by_cases ha : p a
    · rw [if_pos ha] at hq
      rcases List.mem_cons.mp hq with rfl | hq
      · simp at hc
      · have := ih q (hrest ▸ hq) c hc
        exact ⟨List.mem_cons_of_mem _ this.1, this.2⟩
    · rw [if_neg ha] at hq
      simp only [List.headI, List.tail] at hq
      rcases List.mem_cons.mp hq with rfl | hq
      · rcases List.mem_cons.mp hc with rfl | hc
        · exact ⟨List.mem_cons_self _ _, Bool.of_not_eq_true ha⟩
        · have := ih q0 (by rw [hrest]; exact List.mem_cons_self _ _) c hc
          exact ⟨List.mem_cons_of_mem _ this.1, this.2⟩
      · have := ih q (by rw [hrest]; exact List.mem_cons_of_mem _ hq) c hc
        exact ⟨List.mem_cons_of_mem _ this.1, this.2⟩

theorem exists_piece_of_mem (p : Char → Bool) (s : Str) (c : Char)
    (hc : c ∈ s) (hpc : p c = false) : ∃ q ∈ splitP p s, c ∈ q := by
  induction s with
  | nil => simp at hc
  | cons a rest ih =>
    obtain ⟨q0, qs, hrest⟩ := splitP_cons_form p rest
    rw [splitP_cons, hrest]
    by_cases ha : p a
    · rw [if_pos ha]
      rcases List.mem_cons.mp hc with rfl | hc
      · rw [ha] at hpc; simp at hpc
      · obtain ⟨q, hq, hcq⟩ := ih hc
        exact ⟨q, List.mem_cons_of_mem _ (hrest ▸ hq), hcq⟩
    · rw [if_neg ha]
      simp only [List.headI, List.tail]
      rcases List.mem_cons.mp hc with rfl | hc
      · exact ⟨c :: q0, List.mem_cons_self _ _, List.mem_cons_self _ _⟩
      · obtain ⟨q, hq, hcq⟩ := ih hc
        rw [hrest] at hq
        rcases List.mem_cons.mp hq with rfl | hq
        · exact ⟨a :: q, List.mem_cons_self _ _, List.mem_cons_of_mem _ hcq⟩
        · exact ⟨q, List.mem_cons_of_mem _ hq, hcq⟩

theorem splitP_length_sum (p : Char → Bool) (s : Str) :
    ((splitP p s).map List.length).sum + (splitP p s).length = s.length + 1 := by
  induction s with
  | nil => simp [splitP]
  | cons a rest ih =>
    obtain ⟨q0, qs, hrest⟩ := splitP_cons_form p rest
    rw [hrest] at ih
    rw [splitP_cons, hrest]
    by_cases ha : p a
    · rw [if_pos ha]
      simp only [List.map_cons, List.sum_cons, List.length_cons,
        List.length_nil] at ih ⊢
      omega
    · rw [if_neg ha]
      simp only [List.headI, List.tail, List.map_cons, List.sum_cons,
        List.length_cons, List.length_nil] at ih ⊢
      omega

theorem mem_dropWhile_of_mem (p : Char → Bool) (s : Str) (c : Char)
    (hc : c ∈ s) (hpc : p c = false) : c ∈ s.dropWhile p := by
  induction s with
  | nil => simp at hc
  | cons a rest ih =>
    rw [List.dropWhile_cons]
    by_cases ha : p a
    · rcases List.mem_cons.mp hc with rfl | hc
      · rw [ha] at hpc; simp at hpc
      · simpa [ha] using ih hc
    · simpa [ha] using hc

theorem dropWhile_head_not (p : Char → Bool) (s : Str) (c : Char) (t : Str)
    (h : s.dropWhile p = c :: t) : p c = false := by
  induction s with
  | nil => simp at h
  | cons a rest ih =>
    rw [List.dropWhile_cons] at h
    by_cases ha : p a
    · exact ih (by simpa [ha] using h)
    · rw [if_neg ha] at h
      cases h
      exact Bool.of_not_eq_true ha

theorem mem_of_mem_strip (s : Str) (c : Char) (hc : c ∈ strip s) : c ∈ s := by
  unfold strip at hc
  rw [List.mem_reverse] at hc
  have h1 := (List.dropWhile_sublist (p := Char.isWhitespace)
    (l := (s.dropWhile Char.isWhitespace).reverse)).subset hc
  rw [List.mem_reverse] at h1
  exact (List.dropWhile_sublist (p := Char.isWhitespace) (l := s)).subset h1

theorem mem_strip_of_not_ws (s : Str) (c : Char) (hc : c ∈ s)
    (hw : c.isWhitespace = false) : c ∈ strip s := by
  unfold strip
  rw [List.mem_reverse]
  refine mem_dropWhile_of_mem _ _ _ ?_ hw
  rw [List.mem_reverse]
  exact mem_dropWhile_of_mem _ _ _ hc hw

theorem strip_has_non_ws (s : Str) (h : strip s ≠ []) :
    ∃ c ∈ strip s, c.isWhitespace = false := by
  unfold strip at h ⊢
  cases hd : (s.dropWhile Char.isWhitespace).reverse.dropWhile Char.isWhitespace with
  | nil => rw [hd] at h; simp at h
  | cons c t =>
    refine ⟨c, ?_, dropWhile_head_not _ _ _ _ hd⟩
    exact List.mem_reverse.mpr (List.mem_cons_self _ _)

theorem strip_length_le (s : Str) : (strip s).length ≤ s.length := by
  unfold strip
  calc ((s.dropWhile Char.isWhitespace).reverse.dropWhile Char.isWhitespace).reverse.length
      = ((s.dropWhile Char.isWhitespace).reverse.dropWhile Char.isWhitespace).length := by
        rw [List.length_reverse]
    _ ≤ (s.dropWhile Char.isWhitespace).reverse.length :=
        (List.dropWhile_sublist _).length_le
    _ = (s.dropWhile Char.isWhitespace).length := by rw [List.length_reverse]
    _ ≤ s.length := (List.dropWhile_sublist _).length_le

theorem strip_ne_nil_of_mem_not_ws (s : Str) (c : Char) (hc : c ∈ s)
    (hw : c.isWhitespace = false) : strip s ≠ [] := by
  intro h
  have := mem_strip_of_not_ws s c hc hw
  rw [h] at this
  simp at this

theorem dropWhile_dropWhile (p : Char → Bool) (l : Str) :
    (l.dropWhile p).dropWhile p = l.dropWhile p := by
  cases hd : l.dropWhile p with
  | nil => rfl
  | cons c t =>
    have hpc := dropWhile_head_not p l c t hd
    rw [List.dropWhile_cons]
    simp [hpc]

theorem strip_prefix_dropWhile (s : Str) :
    strip s <+: s.dropWhile Char.isWhitespace := by
  unfold strip
  have h1 : (s.dropWhile Char.isWhitespace).reverse.dropWhile Char.isWhitespace <:+
      (s.dropWhile Char.isWhitespace).reverse := List.dropWhile_suffix _
  have h2 := List.reverse_prefix.mpr h1
  rw [List.reverse_reverse] at h2
  exact h2

theorem strip_dropWhile_eq (s : Str) :
    (strip s).dropWhile Char.isWhitespace = strip s := by
  rcases hv : s.dropWhile Char.isWhitespace with _ | ⟨c, v⟩
  · have : strip s = [] := by
      unfold strip
      rw [hv]
      rfl
    rw [this]
    rfl
  · have hpc : c.isWhitespace = false := dropWhile_head_not _ s c v hv
    have hpre := strip_prefix_dropWhile s
    rw [hv] at hpre
    rcases hts : strip s with _ | ⟨c2, t⟩
    · rfl
    · rw [hts] at hpre
      obtain ⟨r, hr⟩ := hpre
      rw [List.cons_append] at hr
      cases hr
      rw [List.dropWhile_cons]
      simp [hpc]

theorem strip_idem (s : Str) : strip (strip s) = strip s := by
  conv_lhs => rw [strip, strip_dropWhile_eq]
  unfold strip
  rw [List.reverse_reverse, dropWhile_dropWhile]

theorem strip_space_cons (l : Str) : strip (' ' :: l) = strip l := by
  unfold strip
  rw [List.dropWhile_cons, if_pos (by decide : ' '.isWhitespace = true)]

/-! ## The chunker never emits blank chunks (machinery shared by C1 and C3) -/

theorem sentencesOf_good (text : Str) :
    ∀ s ∈ sentencesOf text, s ≠ [] ∧ ∃ c ∈ s, c.isWhitespace = false := by
  intro s hs
  unfold sentencesOf at hs
  rw [List.mem_flatMap] at hs
  obtain ⟨para, _, hsent⟩ := hs
  rw [List.mem_filter] at hsent
  obtain ⟨hmem, hne⟩ := hsent
  rw [List.mem_map] at hmem
  obtain ⟨x, _, rfl⟩ := hmem
  have hne' : strip x ≠ [] := by simpa using hne
  exact ⟨hne', strip_has_non_ws x hne'⟩

theorem chunkLoop_good (cs ov : Nat) :
    ∀ (sents : List Str) (current : Str) (chunks : List Str),
      (∀ s ∈ sents, ∃ c ∈ s, c.isWhitespace = false) →
      (current = [] ∨ ∃ c ∈ current, c.isWhitespace = false) →
      (∀ ch ∈ chunks, strip ch ≠ []) →
      ∀ ch ∈ chunkLoop cs ov sents current chunks, strip ch ≠ [] := by
  intro sents
  induction sents with
  | nil =>
    intro current chunks _ hcur hchunks ch hch
    rw [chunkLoop] at hch
    by_cases h : strip current ≠ []
    · rw [if_pos h] at hch
      rcases List.mem_append.mp hch with hch | hch
      · exact hchunks ch hch
      · rcases List.mem_singleton.mp hch with rfl
        rcases hcur with rfl | ⟨c, hc, hw⟩
        · exact absurd rfl h
        · exact strip_ne_nil_of_mem_not_ws _ c (mem_strip_of_not_ws _ c hc hw) hw
    · rw [if_neg h] at hch
      exact hchunks ch hch
  | cons sent rest ih =>
    intro current chunks hsents hcur hchunks ch hch
    rw [chunkLoop] at hch
    obtain ⟨c0, hc0, hw0⟩ := hsents sent (List.mem_cons_self _ _)
    have hrest : ∀ s ∈ rest, ∃ c ∈ s, c.isWhitespace = false :=
      fun s hs => hsents s (List.mem_cons_of_mem _ hs)
    by_cases hcond : current.length + sent.length + 1 > cs ∧ current ≠ []
    · rw [if_pos hcond] at hch
      refine ih _ _ hrest (Or.inr ⟨c0, ?_, hw0⟩) ?_ ch hch
      · exact List.mem_append.mpr (Or.inr (List.mem_cons_of_mem _ hc0))
      · intro ch' hch'
        rcases List.mem_append.mp hch' with h' | h'
        · exact hchunks ch' h'
        · rcases List.mem_singleton.mp h' with rfl
          rcases hcur with rfl | ⟨c, hc, hw⟩
          · exact absurd rfl hcond.2
          · exact strip_ne_nil_of_mem_not_ws _ c (mem_strip_of_not_ws _ c hc hw) hw
    · rw [if_neg hcond] at hch
      refine ih _ _ hrest (Or.inr ⟨c0, ?_, hw0⟩) hchunks ch hch
      exact List.mem_append.mpr (Or.inr (List.mem_cons_of_mem _ hc0))

/-- Every chunk `smart_chunk` emits survives a further strip: shared structural
fact behind C1 and C3. -/
theorem smart_chunk_good (text : Str) (cs ov : Nat) :
    ∀ ch ∈ smart_chunk text cs ov, strip ch ≠ [] := by
  intro ch hch
  exact chunkLoop_good cs ov (sentencesOf text) [] []
    (fun s hs => (sentencesOf_good text s hs).2) (Or.inl rfl)
    (by intro x hx; simp at hx) ch hch

theorem sentencesOf_of_all_ws (text : Str) (hws : strip text = []) :
    sentencesOf text = [] := by
  unfold sentencesOf
  have hfil : ((splitOnChar '\n' text).map strip).filter (· ≠ []) = [] := by
    rw [List.filter_eq_nil_iff]
    intro a ha
    rw [List.mem_map] at ha
    obtain ⟨piece, hpiece, rfl⟩ := ha
    simp only [ne_eq, decide_not, Bool.not_eq_eq_eq_not, Bool.not_true,
      decide_eq_false_iff_not, not_not]
    by_contra hne
    obtain ⟨c, hc, hw⟩ := strip_has_non_ws piece hne
    have hcp : c ∈ piece := mem_of_mem_strip piece c hc
    have hct : c ∈ text := (mem_of_mem_splitP _ text piece hpiece c hcp).1
    exact strip_ne_nil_of_mem_not_ws text c hct hw hws
  rw [hfil]
  rfl

/-! ## C2: the chunker against the algorithm of the spec -/

theorem splitDotSpace_ne_nil (s : Str) : splitDotSpace s ≠ [] := by
  induction s using splitDotSpace.induct with
  | case1 => simp [splitDotSpace]
  | case2 rest ih => simp [splitDotSpace]
  | case3 c rest h ih => simp [splitDotSpace]

theorem sentencesOf_stripped (text : Str) :
    ∀ s ∈ sentencesOf text, strip s = s := by
  intro s hs
  unfold sentencesOf at hs
  rw [List.mem_flatMap] at hs
  obtain ⟨para, _, hsent⟩ := hs
  rw [List.mem_filter] at hsent
  rw [List.mem_map] at hsent
  obtain ⟨⟨x, _, rfl⟩, _⟩ := hsent
  exact strip_idem x

theorem replace_split_eq :
    ∀ s : Str, '\n' ∉ s →
      splitOnChar '\n' (replaceDotSpace s) = splitDotSpace s := by
  intro s
  induction s using replaceDotSpace.induct with
  | case1 => intro _; rfl
  | case2 rest ih =>
    intro h
    have h' : '\n' ∉ rest := fun hm => h (by simp [hm])
    rw [replaceDotSpace, splitDotSpace]
    unfold splitOnChar at ih ⊢
    rw [splitP_cons, if_neg (by decide), splitP_cons, if_pos (by decide)]
    simp only [List.headI, List.tail]
    rw [ih h']
  | case3 c rest hne ih =>
    intro h
    have hc : c ≠ '\n' := fun hm => h (by simp [hm])
    have h' : '\n' ∉ rest := fun hm => h (by simp [hm])
    have hrepl : replaceDotSpace (c :: rest) = c :: replaceDotSpace rest := by
      simp [replaceDotSpace]
    have hds : splitDotSpace (c :: rest) =
        (c :: (splitDotSpace rest).headI) :: (splitDotSpace rest).tail := by
      simp [splitDotSpace]
    rw [hrepl, hds]
    unfold splitOnChar at ih ⊢
    rw [splitP_cons, if_neg (by simp [hc]), ih h']

theorem flatMap_congr_on {α β : Type} (l : List α) (f g : α → List β)
    (h : ∀ a ∈ l, f a = g a) : l.flatMap f = l.flatMap g := by
  induction l with
  | nil => rfl
  | cons a t ih =>
    simp only [List.flatMap_cons]
    rw [h a (List.mem_cons_self _ _),
      ih fun x hx => h x (List.mem_cons_of_mem _ hx)]

theorem sentencesOf_eq_spec (text : Str) :
    sentencesOf text = sentencesSpec text := by
  unfold sentencesOf sentencesSpec
  refine flatMap_congr_on _ _ _ ?_
  intro para hpara
  rw [List.mem_filter] at hpara
  rw [List.mem_map] at hpara
  obtain ⟨⟨piece, hpiece, rfl⟩, -⟩ := hpara
  have hnl : '\n' ∉ strip piece := by
    intro hm
    have hp := mem_of_mem_strip piece '\n' hm
    have := (mem_of_mem_splitP _ text piece hpiece '\n' hp).2
    simp at this
  rw [replace_split_eq _ hnl]

theorem pyTailSlice_eq_spec (words : List Str) (k : Nat) (hk : 1 ≤ k) :
    pyTailSlice words k = specTailWords words k := by
  unfold pyTailSlice specTailWords
  rcases words with _ | ⟨w, ws⟩
  · simp
  · have hm : ¬ (min (w :: ws).length k = 0) := by
      simp only [List.length_cons]
      omega
    rw [if_neg hm]
    congr 1
    simp only [List.length_cons]
    omega

theorem chunkLoop_eq_spec (cs ov : Nat) (hov : 1 ≤ ov / 5) :
    ∀ (sents : List Str) (current : Str) (chunks : List Str),
      chunkLoop cs ov sents current chunks =
        chunkSpecLoop cs ov sents current chunks := by
  intro sents
  induction sents with
  | nil =>
    intro current chunks
    rw [chunkLoop, chunkSpecLoop]
  | cons sent rest ih =>
    intro current chunks
    rw [chunkLoop, chunkSpecLoop]
    by_cases hcond : current.length + sent.length + 1 > cs ∧ current ≠ []
    · rw [if_pos hcond, if_pos hcond,
        pyTailSlice_eq_spec (splitWs current) (ov / 5) hov]
      exact ih _ _
    · rw [if_neg hcond, if_neg hcond]
      exact ih _ _

/-- C2 counterexample: with `overlap = 0` (so the floor of overlap/5 is 0),
the Python slice `words[-0:]` used by the code is the *whole* word list, not
the last 0 words the spec describes, so code and spec diverge on `"aa. bb."`
with `chunk_size = 5`. -/
theorem smart_chunk_overlap_counterexample :
    smart_chunk "aa. bb.".toList 5 0 ≠ chunkSpec "aa. bb.".toList 5 0 := by
  decide

/-- C2 amended: whenever the floor of overlap/5 is at least 1 (in particular
for the default `overlap = 100`, and for every `overlap ≥ 5`), the chunker
follows the algorithm of the spec exactly — paragraph split on newline,
sentence split at `". "`, greedy accumulation, overflow check only with a
non-empty buffer, word-based overlap seeding; and a text forming a single
sentence is emitted whole as one (possibly oversized) chunk, never truncated.
Only for `overlap < 5` does the code deviate, seeding with all words instead
of none. -/
theorem smart_chunk_follows_spec :
    (∀ (text : Str) (cs ov : Nat), 5 ≤ ov →
      smart_chunk text cs ov = chunkSpec text cs ov) ∧
    (∀ (text s : Str) (cs ov : Nat), sentencesOf text = [s] →
      smart_chunk text cs ov = [s]) := by
  constructor
  · intro text cs ov hov
    rw [smart_chunk, chunkSpec, ← sentencesOf_eq_spec]
    exact chunkLoop_eq_spec cs ov (by omega) _ _ _
  · intro text s cs ov hs
    have hgood := sentencesOf_good text s (by rw [hs]; exact List.mem_cons_self _ _)
    have hstr : strip s = s :=
      sentencesOf_stripped text s (by rw [hs]; exact List.mem_cons_self _ _)
    rw [smart_chunk, hs, chunkLoop,
      if_neg (by simp : ¬(([] : Str).length + s.length + 1 > cs ∧ ([] : Str) ≠ [])),
      chunkLoop]
    simp only [List.nil_append]
    rw [strip_space_cons, hstr, if_pos hgood.1]

/-- Witness for the amended C2 theorem at the default parameters and at a
single-sentence text. -/
theorem smart_chunk_follows_spec_witness :
    smart_chunk "Hello world. This is a test.".toList 500 100 =
      chunkSpec "Hello world. This is a test.".toList 500 100 ∧
    smart_chunk "tiny".toList 2 100 = ["tiny".toList] :=
  ⟨smart_chunk_follows_spec.1 "Hello world. This is a test.".toList 500 100
      (by decide),
   smart_chunk_follows_spec.2 "tiny".toList "tiny".toList 2 100 (by decide)⟩

/-! ## C3: no chunk is empty or whitespace-only -/

/-- C3: every chunk the chunker outputs is non-empty and still non-empty after
trimming (never whitespace-only), and empty or whitespace-only input produces
the empty sequence of chunks. -/
theorem smart_chunk_chunks_nonblank :
    ∀ (text : Str) (cs ov : Nat),
      (∀ ch ∈ smart_chunk text cs ov, ch ≠ [] ∧ strip ch ≠ []) ∧
      (strip text = [] → smart_chunk text cs ov = []) := by
  intro text cs ov
  constructor
  · intro ch hch
    have h := smart_chunk_good text cs ov ch hch
    refine ⟨?_, h⟩
    rintro rfl
    exact h rfl
  · intro hws
    rw [smart_chunk, sentencesOf_of_all_ws text hws, chunkLoop]
    simp [strip]

/-- Witness for C3 on a whitespace-only input. -/
theorem smart_chunk_chunks_nonblank_witness :
    strip " \n ".toList = [] ∧ smart_chunk " \n ".toList 500 100 = [] :=
  ⟨by decide, (smart_chunk_chunks_nonblank " \n ".toList 500 100).2 (by decide)⟩

/-! ## C1: stored chunk count vs successful upserts -/

theorem ingestLoop_count (has_index : Bool) :
    ∀ chunks : List Str, (ingestLoop has_index chunks).1 = chunks.length := by
  intro chunks
  induction chunks with
  | nil => rfl
  | cons c rest ih => simp [ingestLoop, ih]

theorem ingestLoop_upserts_no_index :
    ∀ chunks : List Str, (ingestLoop false chunks).2 = 0 := by
  intro chunks
  induction chunks with
  | nil => rfl
  | cons c rest ih => simp [ingestLoop, ingest_text, ih]

theorem ingestLoop_upserts_with_index :
    ∀ chunks : List Str, (∀ ch ∈ chunks, strip ch ≠ []) →
      (ingestLoop true chunks).2 = chunks.length := by
  intro chunks
  induction chunks with
  | nil => intro _; rfl
  | cons c rest ih =>
    intro h
    have hc := h c (List.mem_cons_self _ _)
    simp [ingestLoop, ingest_text, hc,
      ih (fun x hx => h x (List.mem_cons_of_mem _ hx))]
    omega

/-- C1 counterexample: ingesting the text `hello` with the vector index absent
stores a chunk count of 1 while zero chunks were successfully upserted, so the
stored chunk count does not equal the number of successful upserts. -/
theorem ingest_count_counterexample :
    (ingest_file false "a.txt" "hello".toList 5 0).1.chunks ≠
      (ingest_file false "a.txt" "hello".toList 5 0).2 := by
  decide

/-- C1 amended: the stored chunk count always equals the number of chunks
produced by the chunker — the number of upsert *attempts* — which coincides
with the number of successful upserts exactly when the vector index is
present; when it is absent every upsert is skipped and the count still stores
the attempt count. -/
theorem ingest_file_chunk_count :
    ∀ (has_index : Bool) (filename : String) (text : Str) (fs now : Nat),
      (ingest_file has_index filename text fs now).1.chunks =
        (smart_chunk text).length ∧
      (has_index = true →
        (ingest_file has_index filename text fs now).2 =
          (ingest_file has_index filename text fs now).1.chunks) ∧
      (has_index = false →
        (ingest_file has_index filename text fs now).2 = 0) := by
  intro has_index filename text fs now
  refine ⟨?_, ?_, ?_⟩
  · simp [ingest_file, ingestLoop_count]
  · rintro rfl
    simp [ingest_file, ingestLoop_count,
      ingestLoop_upserts_with_index (smart_chunk text)
        (smart_chunk_good text 500 100)]
  · rintro rfl
    simp [ingest_file, ingestLoop_upserts_no_index]

/-- Witness for the amended C1 theorem at a concrete ingest. -/
theorem ingest_file_chunk_count_witness :
    (ingest_file true "a.txt" "hello".toList 5 0).2 =
      (ingest_file true "a.txt" "hello".toList 5 0).1.chunks :=
  (ingest_file_chunk_count true "a.txt" "hello".toList 5 0).2.1 rfl

/-! ## C4: short texts yield exactly one chunk -/

theorem sum_map_succ_eq (l : List Str) :
    (l.map (fun q => q.length + 1)).sum = (l.map List.length).sum + l.length := by
  induction l with
  | nil => rfl
  | cons a t ih =>
    simp only [List.map_cons, List.sum_cons, List.length_cons, ih]
    omega

theorem splitP_sum_succ (p : Char → Bool) (s : Str) :
    ((splitP p s).map (fun q => q.length + 1)).sum = s.length + 1 := by
  rw [sum_map_succ_eq]
  exact splitP_length_sum p s

theorem sum_map_le_of_pointwise (l : List Str) (f g : Str → Nat)
    (h : ∀ a ∈ l, f a ≤ g a) : (l.map f).sum ≤ (l.map g).sum := by
  induction l with
  | nil => exact le_refl _
  | cons a t ih =>
    simp only [List.map_cons, List.sum_cons]
    have h1 := h a (List.mem_cons_self _ _)
    have h2 := ih fun x hx => h x (List.mem_cons_of_mem _ hx)
    omega

theorem sum_filter_le (b : Str → Bool) (f : Str → Nat) (l : List Str) :
    ((l.filter b).map f).sum ≤ (l.map f).sum := by
  induction l with
  | nil => exact le_refl _
  | cons a t ih =>
    rw [List.filter_cons]
    by_cases hb : b a
    · simp only [hb, if_true, List.map_cons, List.sum_cons]
      omega
    · simp only [hb, Bool.false_eq_true, if_false, List.map_cons, List.sum_cons]
      omega

theorem sum_flatMap_eq (g : Str → List Str) (f : Str → Nat) (l : List Str) :
    ((l.flatMap g).map f).sum = (l.map (fun a => ((g a).map f).sum)).sum := by
  induction l with
  | nil => rfl
  | cons a t ih =>
    simp only [List.flatMap_cons, List.map_append, List.sum_append,
      List.map_cons, List.sum_cons, ih]

theorem replaceDotSpace_length (s : Str) :
    (replaceDotSpace s).length = s.length := by
  induction s using replaceDotSpace.induct with
  | case1 => rfl
  | case2 rest ih => simp [replaceDotSpace, ih]
  | case3 c rest h ih => simp [replaceDotSpace, ih]

theorem mem_replaceDotSpace (s : Str) (c : Char) (hc : c ∈ s) (hcs : c ≠ ' ') :
    c ∈ replaceDotSpace s := by
  induction s using replaceDotSpace.induct with
  | case1 => simp at hc
  | case2 rest ih =>
    rw [replaceDotSpace]
    rcases List.mem_cons.mp hc with rfl | hc
    · exact List.mem_cons_self _ _
    · rcases List.mem_cons.mp hc with rfl | hc
      · exact absurd rfl hcs
      · exact List.mem_cons_of_mem _ (List.mem_cons_of_mem _ (ih hc))
  | case3 a rest h ih =>
    have hrepl : replaceDotSpace (a :: rest) = a :: replaceDotSpace rest := by
      simp [replaceDotSpace]
    rw [hrepl]
    rcases List.mem_cons.mp hc with rfl | hc
    · exact List.mem_cons_self _ _
    · exact List.mem_cons_of_mem _ (ih hc)

theorem splitStripFilter_sum_le (p : Char → Bool) (s : Str) :
    (((((splitP p s).map strip).filter (fun q => q ≠ [])).map
        (fun q => q.length + 1)).sum) ≤ s.length + 1 := by
  calc ((((splitP p s).map strip).filter (fun q => q ≠ [])).map
          (fun q => q.length + 1)).sum
      ≤ (((splitP p s).map strip).map (fun q => q.length + 1)).sum :=
        sum_filter_le _ _ _
    _ = ((splitP p s).map (fun q => (strip q).length + 1)).sum := by
        rw [List.map_map]
        rfl
    _ ≤ ((splitP p s).map (fun q => q.length + 1)).sum :=
        sum_map_le_of_pointwise _ _ _ fun a _ =>
          Nat.add_le_add_right (strip_length_le a) 1
    _ = s.length + 1 := splitP_sum_succ p s

theorem sentencesOf_sum_le (text : Str) :
    ((sentencesOf text).map (fun q => q.length + 1)).sum ≤ text.length + 1 := by
  unfold sentencesOf splitOnChar
  rw [sum_flatMap_eq]
  calc ((((splitP (fun c => c = '\n') text).map strip).filter (· ≠ [])).map
          fun para =>
            ((((splitP (fun c => c = '\n') (replaceDotSpace para)).map
                strip).filter (· ≠ [])).map fun q => q.length + 1).sum).sum
      ≤ ((((splitP (fun c => c = '\n') text).map strip).filter (· ≠ [])).map
          fun para => para.length + 1).sum := by
        refine sum_map_le_of_pointwise _ _ _ fun para _ => ?_
        have h := splitStripFilter_sum_le (fun c => c = '\n')
          (replaceDotSpace para)
        rw [replaceDotSpace_length] at h
        exact h
    _ ≤ text.length + 1 := splitStripFilter_sum_le _ text

theorem chunkLoop_no_overflow (cs ov : Nat) :
    ∀ (sents : List Str) (current : Str) (chunks : List Str),
      current.length + (sents.map (fun s => s.length + 1)).sum ≤ cs →
      chunkLoop cs ov sents current chunks =
        if strip (appendAll current sents) ≠ []
        then chunks ++ [strip (appendAll current sents)] else chunks := by
  intro sents
  induction sents with
  | nil =>
    intro current chunks _
    rw [chunkLoop, appendAll]
  | cons sent rest ih =>
    intro current chunks hsum
    simp only [List.map_cons, List.sum_cons] at hsum
    rw [chunkLoop, if_neg ?hcond]
    case hcond =>
      rintro ⟨h1, -⟩
      omega
    rw [appendAll]
    refine ih (current ++ ' ' :: sent) chunks ?_
    simp only [List.length_append, List.length_cons]
    omega

theorem mem_appendAll_left :
    ∀ (sents : List Str) (current : Str) (c : Char),
      c ∈ current → c ∈ appendAll current sents := by
  intro sents
  induction sents with
  | nil => intro current c hc; exact hc
  | cons s rest ih =>
    intro current c hc
    rw [appendAll]
    exact ih _ c (List.mem_append.mpr (Or.inl hc))

theorem mem_appendAll_of_sent :
    ∀ (sents : List Str) (current s : Str) (c : Char),
      s ∈ sents → c ∈ s → c ∈ appendAll current sents := by
  intro sents
  induction sents with
  | nil => intro current s c hs _; simp at hs
  | cons s0 rest ih =>
    intro current s c hs hc
    rw [appendAll]
    rcases List.mem_cons.mp hs with rfl | hs
    · exact mem_appendAll_left rest _ c
        (List.mem_append.mpr (Or.inr (List.mem_cons_of_mem _ hc)))
    · exact ih _ s c hs hc

theorem sentencesOf_ne_nil_of_non_ws (text : Str) (c : Char) (hc : c ∈ text)
    (hw : c.isWhitespace = false) : sentencesOf text ≠ [] := by
  have hcn : (fun x => decide (x = '\n')) c = false := by
    simp only [decide_eq_false_iff_not]
    rintro rfl
    simp at hw
  obtain ⟨piece, hpiece, hcp⟩ :=
    exists_piece_of_mem (fun x => decide (x = '\n')) text c hc hcn
  have hps : strip piece ≠ [] := strip_ne_nil_of_mem_not_ws piece c hcp hw
  have hcsp : c ∈ strip piece := mem_strip_of_not_ws piece c hcp hw
  have hcr : c ∈ replaceDotSpace (strip piece) := by
    refine mem_replaceDotSpace _ c hcsp ?_
    rintro rfl
    simp at hw
  obtain ⟨piece2, hpiece2, hcp2⟩ :=
    exists_piece_of_mem (fun x => decide (x = '\n'))
      (replaceDotSpace (strip piece)) c hcr hcn
  have hps2 : strip piece2 ≠ [] := strip_ne_nil_of_mem_not_ws piece2 c hcp2 hw
  unfold sentencesOf
  simp only [ne_eq, List.flatMap_eq_nil_iff]
  push_neg
  refine ⟨strip piece, ?_, ?_⟩
  · rw [List.mem_filter]
    refine ⟨List.mem_map.mpr ⟨piece, hpiece, rfl⟩, by simpa using hps⟩
  · intro hnil
    rw [List.filter_eq_nil_iff] at hnil
    refine hnil (strip piece2) (List.mem_map.mpr ⟨piece2, ?_, rfl⟩) ?_
    · exact hpiece2
    · simpa using hps2

/-- C4 counterexample: the single-space text is non-empty and much shorter
than the default chunk size, yet the chunker returns no chunks at all, not
one. -/
theorem smart_chunk_single_chunk_counterexample :
    " ".toList ≠ [] ∧ " ".toList.length < 500 ∧
      (smart_chunk " ".toList 500 100).length ≠ 1 := by
  decide

/-- C4 amended: every input text containing at least one non-whitespace
character (rather than merely being non-empty) whose total length is strictly
less than the chunk size yields exactly one chunk. -/
theorem smart_chunk_single_chunk :
    ∀ (text : Str) (c : Char) (cs ov : Nat),
      c ∈ text → c.isWhitespace = false → text.length < cs →
      (smart_chunk text cs ov).length = 1 := by
  intro text c cs ov hc hw hlen
  rw [smart_chunk]
  rw [chunkLoop_no_overflow cs ov (sentencesOf text) [] [] ?hsum]
  case hsum =>
    simp only [List.length_nil, Nat.zero_add]
    have := sentencesOf_sum_le text
    omega
  have hne : strip (appendAll [] (sentencesOf text)) ≠ [] := by
    obtain ⟨s0, srest, hs⟩ : ∃ s0 srest, sentencesOf text = s0 :: srest := by
      cases hss : sentencesOf text with
      | nil => exact absurd hss (sentencesOf_ne_nil_of_non_ws text c hc hw)
      | cons s0 srest => exact ⟨s0, srest, rfl⟩
    obtain ⟨c0, hc0, hw0⟩ :=
      (sentencesOf_good text s0 (by rw [hs]; exact List.mem_cons_self _ _)).2
    refine strip_ne_nil_of_mem_not_ws _ c0 ?_ hw0
    rw [hs]
    exact mem_appendAll_of_sent _ _ s0 c0 (List.mem_cons_self _ _) hc0
  rw [if_pos hne]
  simp

/-- Witness for the amended C4 theorem on a concrete short text. -/
theorem smart_chunk_single_chunk_witness :
    (smart_chunk "hi".toList 500 100).length = 1 :=
  smart_chunk_single_chunk "hi".toList 'h' 500 100 (by decide) (by decide)
    (by decide)

/-! ## C5 / C6: the Generation Gateway -/

/-- C5: the generation operation is modelled as a total function (it never
raises); when no credential is configured, every call — for every chain,
every external-model behaviour and every prompt — returns the fixed
missing-credential message and performs zero outbound model calls. -/
theorem call_gemini_no_credential :
    ∀ (chain : List String)
      (oracle : String → String → Nat → Except String String)
      (prompt : String),
      call_gemini false chain oracle prompt = (missingKeyMsg, 0) := by
  intro chain oracle prompt
  rfl

theorem tryAttempts_all_rl (call : Nat → Except String String)
    (h : ∀ i, ∃ e, call i = Except.error e ∧ isRateLimited e = true) :
    tryAttempts call [0, 1] = (none, 2) := by
  obtain ⟨e0, h0, r0⟩ := h 0
  obtain ⟨e1, h1, r1⟩ := h 1
  simp [tryAttempts, h0, h1, r0, r1]

theorem modelChainLoop_all_rl (oracle : String → Nat → Except String String)
    (h : ∀ m i, ∃ e, oracle m i = Except.error e ∧ isRateLimited e = true) :
    ∀ ms, modelChainLoop oracle ms = (none, 2 * ms.length) := by
  intro ms
  induction ms with
  | nil => simp [modelChainLoop]
  | cons m ms ih =>
    have ht := tryAttempts_all_rl (oracle m) (fun i => h m i)
    rw [modelChainLoop, ht, ih]
    simp
    ring

/-- C6: a rate-limit-shaped failure allows up to 2 attempts on the same model
(both attempts are consumed before moving on), any other failure aborts that
model after a single attempt, and with the 5-model chain failing
rate-limit-shaped everywhere, exactly 10 outbound attempts happen and the
fixed exhausted-fallback message is returned. -/
theorem call_gemini_fallback_policy :
    (∀ (oracle : String → String → Nat → Except String String)
       (prompt : String),
        (∀ m i, ∃ e, oracle prompt m i = Except.error e ∧ isRateLimited e = true) →
        call_gemini true GEMINI_MODEL_CHAIN oracle prompt = (exhaustedMsg, 10))
    ∧ (∀ (call : Nat → Except String String) (e : String),
        call 0 = Except.error e → isRateLimited e = false →
        tryAttempts call [0, 1] = (none, 1))
    ∧ (∀ (call : Nat → Except String String) (e e' : String),
        call 0 = Except.error e → isRateLimited e = true →
        call 1 = Except.error e' →
        (tryAttempts call [0, 1]).2 = 2) := by
  refine ⟨?_, ?_, ?_⟩
  · intro oracle prompt h
    have := modelChainLoop_all_rl (oracle prompt) h GEMINI_MODEL_CHAIN
    rw [call_gemini, if_pos rfl, this]
    rfl
  · intro call e h0 hrl
    simp [tryAttempts, h0, hrl]
  · intro call e e' h0 hrl h1
    cases hre : isRateLimited e' <;> simp [tryAttempts, h0, hrl, h1, hre]

/-- Witness for C6 at a concrete always-429 oracle. -/
theorem call_gemini_fallback_policy_witness :
    call_gemini true GEMINI_MODEL_CHAIN (fun _ _ _ => Except.error "429") "p" =
      (exhaustedMsg, 10) :=
  call_gemini_fallback_policy.1 (fun _ _ _ => Except.error "429") "p"
    (fun _ _ => ⟨"429", rfl, by decide⟩)

/-! ## C9: DELETE /documents/{filename} -/

/-- C9: deleting a document removes exactly the metadata entry for that
filename (404 when unknown), leaves the metadata of all other documents
unchanged, and never touches the vector index state. -/
theorem delete_document_frame :
    ∀ (docs : DocStore) (V : Type) (index : V) (filename : String),
      (docs filename = none →
        delete_document docs index filename = (docs, index, DeleteStatus.notFound))
      ∧ (∀ m, docs filename = some m →
          (delete_document docs index filename).2.2 = DeleteStatus.deleted ∧
          (delete_document docs index filename).1 filename = none ∧
          ∀ f, f ≠ filename → (delete_document docs index filename).1 f = docs f)
      ∧ (delete_document docs index filename).2.1 = index := by
  intro docs V index filename
  refine ⟨?_, ?_, ?_⟩
  · intro h
    simp [delete_document, h]
  · intro m h
    simp [delete_document, h]
    intro f hf
    simp [hf]
  · cases h : docs filename <;> simp [delete_document, h]

/-- Witness for C9: deleting an unknown filename from the empty store. -/
theorem delete_document_frame_witness :
    delete_document (fun _ => (none : Option DocMeta)) (0 : Nat) "unknown.txt" =
      ((fun _ => none), 0, DeleteStatus.notFound) :=
  (delete_document_frame (fun _ => none) Nat 0 "unknown.txt").1 rfl

/-! ## C8: non-chat queries are pure reads of the conversation store -/

theorem collectResults_length (l : List SearchItem) :
    (collectResults l).1.length = l.length := by
  induction l with
  | nil => rfl
  | cons item rest ih => simp [collectResults, ih]

theorem collectResults_map_score (l : List SearchItem) :
    (collectResults l).1.map FormattedResult.score =
      l.map SearchItem.similarity := by
  induction l with
  | nil => rfl
  | cons item rest ih => simp [collectResults, ih]

/-- C8: a query in any non-chat mode returns a null answer, leaves the
conversation store untouched, returns a null conversation id when none was
supplied, and exposes the index hits one-for-one: as many results as hits
(hence at most `top_k` under the index contract), carrying the hit scores in
order (hence descending whenever the index returned them descending). -/
theorem query_index_non_chat :
    ∀ (conversations : ConvStore) (search_results : List SearchItem)
      (generate_answer : String → List String → List ChatMessage → String)
      (new_uuid : String) (now : Nat) (query : String) (top_k : Nat)
      (mode : String) (conversation_id : Option String),
      mode ≠ "chat" →
      (query_index conversations search_results generate_answer new_uuid now
          query top_k mode conversation_id).answer = none ∧
      (query_index conversations search_results generate_answer new_uuid now
          query top_k mode conversation_id).conversations = conversations ∧
      (conversation_id = none →
        (query_index conversations search_results generate_answer new_uuid now
            query top_k mode conversation_id).conversation_id = none) ∧
      (query_index conversations search_results generate_answer new_uuid now
          query top_k mode conversation_id).results.length =
        search_results.length ∧
      (search_results.length ≤ top_k →
        (query_index conversations search_results generate_answer new_uuid now
            query top_k mode conversation_id).results.length ≤ top_k) ∧
      (query_index conversations search_results generate_answer new_uuid now
          query top_k mode conversation_id).results.map FormattedResult.score =
        search_results.map SearchItem.similarity ∧
      (List.Pairwise (fun a b => simGe a.similarity b.similarity = true)
          search_results →
        List.Pairwise (fun a b => simGe a.score b.score = true)
          (query_index conversations search_results generate_answer new_uuid now
              query top_k mode conversation_id).results) := by
  intro conversations search_results generate_answer new_uuid now query top_k
    mode conversation_id hmode
  have hout : query_index conversations search_results generate_answer new_uuid
      now query top_k mode conversation_id =
      ⟨(collectResults search_results).1, none, conversation_id, conversations⟩ := by
    simp only [query_index, if_neg hmode]
  rw [hout]
  refine ⟨rfl, rfl, ?_, collectResults_length search_results, ?_, ?_, ?_⟩
  · rintro rfl
    rfl
  · intro h
    rw [collectResults_length search_results]
    exact h
  · exact collectResults_map_score search_results
  · intro hp
    have h1 : List.Pairwise (fun x y : Option ℚ => simGe x y = true)
        (search_results.map SearchItem.similarity) := List.pairwise_map.mpr hp
    rw [← collectResults_map_score search_results] at h1
    exact List.pairwise_map.mp h1

/-- Witness for C8 on a concrete search-mode query. -/
theorem query_index_non_chat_witness :
    (query_index (fun _ => none) [] (fun _ _ _ => "") "u" 0 "what is X" 5
        "search" none).answer = none ∧
    (query_index (fun _ => none) [] (fun _ _ _ => "") "u" 0 "what is X" 5
        "search" none).conversation_id = none := by
  have h := query_index_non_chat (fun _ => none) [] (fun _ _ _ => "") "u" 0
    "what is X" 5 "search" none (by decide)
  exact ⟨h.1, h.2.2.1 rfl⟩

/-! ## C7: chat queries append exactly one user/assistant pair -/

/-- C7: a chat-mode query appends exactly two messages — user first, then
assistant — to exactly one conversation (every other conversation is
untouched), so an all-even store stays all-even; and when no conversation id
is supplied, or the supplied id is unknown, the returned id is the freshly
minted uuid — previously unseen by hypothesis — whose conversation holds
exactly the two new messages. -/
theorem query_index_chat_pairs :
    ∀ (conversations : ConvStore) (search_results : List SearchItem)
      (generate_answer : String → List String → List ChatMessage → String)
      (new_uuid : String) (now : Nat) (query : String) (top_k : Nat)
      (conversation_id : Option String),
      conversations new_uuid = none →
      ∀ out, out = query_index conversations search_results generate_answer
          new_uuid now query top_k "chat" conversation_id →
      ∃ cid ans,
        out.conversation_id = some cid ∧
        out.answer = some ans ∧
        (∀ i, i ≠ cid → out.conversations i = conversations i) ∧
        ((∃ c0, conversation_id = some cid ∧ conversations cid = some c0 ∧
            out.conversations cid = some
              { id := c0.id, title := c0.title,
                messages := c0.messages ++
                  [{ role := "user", content := query },
                   { role := "assistant", content := ans }],
                created_at := c0.created_at, updated_at := now }) ∨
          (cid = new_uuid ∧
            out.conversations new_uuid = some
              { id := new_uuid, title := generate_title_from_query query,
                messages := [{ role := "user", content := query },
                             { role := "assistant", content := ans }],
                created_at := now, updated_at := now } ∧
            (conversation_id = none ∨
              ∃ cid0, conversation_id = some cid0 ∧
                conversations cid0 = none))) ∧
        ((∀ i c, conversations i = some c → c.messages.length % 2 = 0) →
          ∀ i c, out.conversations i = some c → c.messages.length % 2 = 0) := by
  intro conversations search_results generate_answer new_uuid now query top_k
    conversation_id hfresh out hout
  subst hout
  rcases conversation_id with _ | cid0
  · -- no conversation id supplied: the fresh-uuid path
    have h3 : ∀ i, i ≠ new_uuid →
        (query_index conversations search_results generate_answer new_uuid now
            query top_k "chat" none).conversations i = conversations i := by
      intro i hi
      simp [query_index, hi]
    have h4 : (query_index conversations search_results generate_answer
        new_uuid now query top_k "chat" none).conversations new_uuid = some
          { id := new_uuid, title := generate_title_from_query query,
            messages := [{ role := "user", content := query },
                         { role := "assistant",
                           content := generate_answer query
                             (collectResults search_results).2 [] }],
            created_at := now, updated_at := now } := by
      simp [query_index, freshConv]
    refine ⟨new_uuid, generate_answer query (collectResults search_results).2 [],
      by simp [query_index], by simp [query_index], h3,
      Or.inr ⟨rfl, h4, Or.inl rfl⟩, ?_⟩
    intro hinv i c hic
    by_cases hi : i = new_uuid
    · subst hi
      rw [h4] at hic
      cases hic
      simp
    · rw [h3 i hi] at hic
      exact hinv i c hic
  · cases hc : conversations cid0 with
    | some c0 =>
      -- known conversation: two messages are appended to it
      have h3 : ∀ i, i ≠ cid0 →
          (query_index conversations search_results generate_answer new_uuid
              now query top_k "chat" (some cid0)).conversations i =
            conversations i := by
        intro i hi
        simp [query_index, hc, hi]
      have h4 : (query_index conversations search_results generate_answer
          new_uuid now query top_k "chat" (some cid0)).conversations cid0 =
          some { id := c0.id, title := c0.title,
                 messages := c0.messages ++
                   [{ role := "user", content := query },
                    { role := "assistant",
                      content := generate_answer query
                        (collectResults search_results).2
                        (lastSix c0.messages) }],
                 created_at := c0.created_at, updated_at := now } := by
        simp [query_index, hc]
      refine ⟨cid0, generate_answer query (collectResults search_results).2
        (lastSix c0.messages),
        by simp [query_index, hc], by simp [query_index, hc], h3,
        Or.inl ⟨c0, rfl, hc, h4⟩, ?_⟩
      intro hinv i c hic
      by_cases hi : i = cid0
      · rw [hi] at hic
        rw [h4] at hic
        cases hic
        have := hinv cid0 c0 hc
        simp
        omega
      · rw [h3 i hi] at hic
        exact hinv i c hic
    | none =>
      -- unknown conversation id: the fresh-uuid path again
      have h3 : ∀ i, i ≠ new_uuid →
          (query_index conversations search_results generate_answer new_uuid
              now query top_k "chat" (some cid0)).conversations i =
            conversations i := by
        intro i hi
        simp [query_index, hc, hi]
      have h4 : (query_index conversations search_results generate_answer
          new_uuid now query top_k "chat" (some cid0)).conversations new_uuid =
          some { id := new_uuid, title := generate_title_from_query query,
                 messages := [{ role := "user", content := query },
                              { role := "assistant",
                                content := generate_answer query
                                  (collectResults search_results).2 [] }],
                 created_at := now, updated_at := now } := by
        simp [query_index, hc, freshConv]
      refine ⟨new_uuid, generate_answer query (collectResults search_results).2 [],
        by simp [query_index, hc], by simp [query_index, hc], h3,
        Or.inr ⟨rfl, h4, Or.inr ⟨cid0, rfl, hc⟩⟩, ?_⟩
      intro hinv i c hic
      by_cases hi : i = new_uuid
      · subst hi
        rw [h4] at hic
        cases hic
        simp
      · rw [h3 i hi] at hic
        exact hinv i c hic

/-- Witness for C7 on a concrete chat query against an empty store. -/
theorem query_index_chat_pairs_witness :
    ∃ cid ans,
      (query_index (fun _ => none) [] (fun _ _ _ => "ok") "u1" 7 "q" 5 "chat"
          none).conversation_id = some cid ∧
      (query_index (fun _ => none) [] (fun _ _ _ => "ok") "u1" 7 "q" 5 "chat"
          none).answer = some ans := by
  obtain ⟨cid, ans, h1, h2, -⟩ :=
    query_index_chat_pairs (fun _ => none) [] (fun _ _ _ => "ok") "u1" 7 "q" 5
      none rfl _ rfl
  exact ⟨cid, ans, h1, h2⟩

/-! ## C10: non-chat queries echo the supplied conversation id -/

/-- C10: a non-chat query that supplies a conversation id gets that id echoed
back unchanged, even when no conversation with that id exists (and none is
created). -/
theorem query_index_echoes_conv_id :
    ∀ (conversations : ConvStore) (search_results : List SearchItem)
      (generate_answer : String → List String → List ChatMessage → String)
      (new_uuid : String) (now : Nat) (query : String) (top_k : Nat)
      (mode : String) (cid : String),
      mode ≠ "chat" → conversations cid = none →
      (query_index conversations search_results generate_answer new_uuid now
          query top_k mode (some cid)).conversation_id = some cid ∧
      (query_index conversations search_results generate_answer new_uuid now
          query top_k mode (some cid)).conversations = conversations := by
  intro conversations search_results generate_answer new_uuid now query top_k
    mode cid hmode _
  rw [query_index, if_neg hmode]
  exact ⟨rfl, rfl⟩

/-- Witness for C10 on a concrete search-mode query with an unknown id. -/
theorem query_index_echoes_conv_id_witness :
    (query_index (fun _ => none) [] (fun _ _ _ => "") "u" 0 "q" 5 "search"
        (some "c1")).conversation_id = some "c1" :=
  (query_index_echoes_conv_id (fun _ => none) [] (fun _ _ _ => "") "u" 0 "q" 5
    "search" "c1" (by decide) rfl).1
